import Mathlib

/-!
PyFxCore: the lifecycle controller of `dllmain.cpp`

A shallow embedding of `src/dllmain.cpp`:

* `ConfigParser` (`trim`, `load`, `get`): `std::string` is a list of characters,
  the `unordered_map` is an association list with unique keys, the file is the
  list of lines that `std::getline` delivers (`none` when it cannot be opened);
* `interpreterFunction`: the calls into the C runtime and the Python runtime are
  events of a trace, each with the C string it receives (`c_str()` ends at the
  first NUL, `std::wstring(begin, end)` widens byte by byte); their `PyStatus`
  results come from a `PyApi` record;
* `pyfx::start`, `pyfx::stop`, `pyfx::running` and `DllMain`: transitions on the
  two globals `isRunning` and `interpreterThread`.
-/

namespace PyFx

/-- A `std::string`: its characters in order. -/
abbrev Str := List Char

/-- The value `std::string::npos` of a 64-bit `size_t`. -/
def npos : Nat := 2 ^ 64 - 1

/-- The set `whitespace` of `ConfigParser::trim`: `" \t\n\r"`. -/
def whitespace : Str := [' ', '\t', '\n', '\r']

/-- Index of the first character satisfying `p`, `none` standing for `npos`. -/
def firstIdx (p : Char → Bool) : Str → Option Nat
  | [] => none
  | c :: cs => if p c then some 0 else (firstIdx p cs).map (· + 1)

/-- Index of the last character satisfying `p`, `none` standing for `npos`. -/
def lastIdx (p : Char → Bool) : Str → Option Nat
  | [] => none
  | c :: cs =>
    match lastIdx p cs with
    | some i => some (i + 1)
    | none => if p c then some 0 else none

/-- `str.find_first_not_of(set)`. -/
def find_first_not_of (str set : Str) : Option Nat :=
  firstIdx (fun c => !set.contains c) str

/-- `str.find_last_not_of(set)`. -/
def find_last_not_of (str set : Str) : Option Nat :=
  lastIdx (fun c => !set.contains c) str

/-- `str.find(ch)`. -/
def find (str : Str) (ch : Char) : Option Nat :=
  firstIdx (fun c => c == ch) str

/-- `str.substr(pos, count)` for `pos ≤ str.size()` (every call site of the
source satisfies it). -/
def substr (str : Str) (pos count : Nat) : Str :=
  (str.drop pos).take count

/-- `str.substr(pos)`: everything from `pos` to the end. -/
def substrFrom (str : Str) (pos : Nat) : Str :=
  str.drop pos

/-- `ConfigParser::trim` (lines 72-77). -/
def trim (str : Str) : Str :=
  match find_first_not_of str whitespace with
  | none => []
  | some start =>
    let stop := (find_last_not_of str whitespace).getD npos
    substr str start (stop - start + 1)

/-- The member `configData`: an `unordered_map<string, string>`, kept as an
association list in which every key occurs once. -/
abbrev Store := List (Str × Str)

/-- `configData.find(key)`: the mapped value, `none` for `end()`. -/
def Store.find (m : Store) (key : Str) : Option Str :=
  match m with
  | [] => none
  | (k, v) :: rest => if k = key then some v else Store.find rest key

/-- The store without the entry of `key`. -/
def Store.erase : Store → Str → Store
  | [], _ => []
  | (k, v) :: rest, key => if k = key then Store.erase rest key else (k, v) :: Store.erase rest key

/-- `configData[key] = value`: inserts the key or overwrites its value. -/
def Store.assign (m : Store) (key value : Str) : Store :=
  (key, value) :: m.erase key

/-- The locals and the member that the loop of `load` updates. -/
structure LoadState where
  currentSection : Str
  configData : Store
  deriving DecidableEq, Repr

/-- One iteration of the `while (std::getline(file, line))` loop of
`ConfigParser::load` (lines 38-59). -/
def loadLine (st : LoadState) (raw : Str) : LoadState :=
  let line := trim raw
  if line.isEmpty || line.head? == some '#' then st
  else if line.head? == some '[' && line.getLast? == some ']' then
    { st with currentSection := substr line 1 (line.length - 2) }
  else
    match find line '=' with
    | some delimiterPos =>
      let key := trim (substr line 0 delimiterPos)
      let value := trim (substrFrom line (delimiterPos + 1))
      let key := if !st.currentSection.isEmpty then st.currentSection ++ ['.'] ++ key else key
      { st with configData := st.configData.assign key value }
    | none => st

/-- The whole loop of `load` over the lines of the file. -/
def loadLines (st : LoadState) (lines : List Str) : LoadState :=
  lines.foldl loadLine st

/-- The class `ConfigParser`: its one data member. -/
structure ConfigParser where
  configData : Store
  deriving DecidableEq, Repr

/-- A freshly constructed parser (`ConfigParser parser;`). -/
def ConfigParser.new : ConfigParser := ⟨[]⟩

/-- `ConfigParser::load` (lines 32-62): `file` is `none` when the file cannot be
opened, otherwise the lines `std::getline` reads. Returns the `bool` and the
parser afterwards. -/
def ConfigParser.load (self : ConfigParser) (file : Option (List Str)) : Bool × ConfigParser :=
  match file with
  | none => (false, self)
  | some lines => (true, ⟨(loadLines ⟨[], self.configData⟩ lines).configData⟩)

/-- `ConfigParser::get` (lines 64-67). -/
def ConfigParser.get (self : ConfigParser) (key : Str) (defaultValue : Str) : Str :=
  match self.configData.find key with
  | some v => v
  | none => defaultValue

/-! ## The worker: `interpreterFunction` -/

/-- A wide string: the `wchar_t` code units of a `std::wstring`. -/
abbrev WStr := List Nat

/-- What a C function reads from `s.c_str()`: the characters before the first
NUL of `s`. -/
def c_str (s : Str) : Str :=
  s.takeWhile (fun c => c != Char.ofNat 0)

/-- A `char` converted to `wchar_t`, as the range constructor
`std::wstring(begin, end)` converts each element. The byte of a character is its
code; `char` is a signed byte and `wchar_t` has 16 bits (the Windows ABI this
module is built for), so a byte from 0x80 on is sign-extended. -/
def widen (c : Char) : Nat :=
  if c.toNat % 256 < 128 then c.toNat % 256 else 0xFF00 + c.toNat % 256

/-- `std::wstring(s.begin(), s.end())`. -/
def wstring (s : Str) : WStr :=
  s.map widen

/-- What a C function reads from `w.c_str()`: the units before the first zero. -/
def wc_str (w : WStr) : WStr :=
  w.takeWhile (fun u => u != 0)

/-- What `std::cerr << path` writes for a `fs::path`: the path between double
quotes, each `"` and `\` of it preceded by `\`. -/
def quoted (s : Str) : Str :=
  '"' :: (s.map (fun c => if c = '"' ∨ c = '\\' then ['\\', c] else [c])).flatten ++ ['"']

/-- A `PyStatus` as the code inspects it: `PyStatus_Exception(status)` and
`status.err_msg`. -/
structure PyStatus where
  exception : Bool
  err_msg : Str
  deriving DecidableEq, Repr

/-- The two fields of `PyConfig` that the code fills. -/
structure PyConfig where
  home : Option WStr
  module_search_paths : List WStr
  deriving DecidableEq, Repr

/-- The status each call into the runtime returns, given the wide C string it
receives: the runtime is not part of the source, so its answers are parameters. -/
structure PyApi where
  PyConfig_SetString : WStr → PyStatus
  PyWideStringList_Append : List WStr → WStr → PyStatus
  Py_InitializeFromConfig : PyConfig → PyStatus

/-- What the worker does to the world outside itself, in order. A call is
recorded with the C string it receives. -/
inductive Event where
  | cerr (text : Str)
  | putenv (envstring : Str)
  | PyConfig_InitPythonConfig
  | PyConfig_SetString (home : WStr)
  | PyWideStringList_Append (item : WStr)
  | Py_InitializeFromConfig (config : PyConfig)
  | PyConfig_Clear
  | gil_release_sleep
  | finalize_interpreter
  deriving DecidableEq, Repr

/-- How the idle loop ends: `isRunning` is read as false, or an exception is
caught by one of the two handlers. -/
inductive LoopExit where
  | flagCleared
  | exception (what : Str)
  | unknownException
  deriving DecidableEq, Repr

/-- What one run of the worker meets: the path and content of `PyFX.config`
(`none` when it cannot be opened), the runtime's answers, the number of times
`while (isRunning)` reads true and completes its body, and how the loop ends. -/
structure WorkerEnv where
  configPath : Str
  file : Option (List Str)
  api : PyApi
  iterations : Nat
  loopExit : LoopExit

/-- The trace of a piece of the worker, and the `std::runtime_error` it leaves
with, if any. -/
structure WorkerRun where
  trace : List Event
  threw : Option Str
  deriving DecidableEq, Repr

/-- Lines 81-135 of `interpreterFunction`: configuration, environment, `PyConfig`
and initialization of the runtime. -/
def interpreterSetup (env : WorkerEnv) : WorkerRun :=
  let loaded := ConfigParser.new.load env.file
  let parser := loaded.2
  let t0 : List Event :=
    if !loaded.1 then
      [.cerr ("Failed to load configuration file from ".toList ++ quoted env.configPath)]
    else []
  let pythonHome := parser.get "Paths.python_home_dir".toList []
  let libDir := parser.get "Paths.lib_dir".toList []
  let sitePackages := parser.get "Paths.site_packages_dir".toList []
  let pythonZipPath := pythonHome ++ "\\python311.zip".toList
  let pythonPath := pythonZipPath ++ ";".toList ++ libDir ++ ";".toList ++ sitePackages
  let t1 := t0 ++ [.putenv (c_str ("PYTHONHOME=".toList ++ pythonHome)),
    .putenv (c_str ("PYTHONPATH=".toList ++ pythonPath)), .PyConfig_InitPythonConfig]
  let config : PyConfig := ⟨none, []⟩
  let status := env.api.PyConfig_SetString (wc_str (wstring pythonHome))
  let t2 := t1 ++ [.PyConfig_SetString (wc_str (wstring pythonHome))]
  if status.exception then
    ⟨t2 ++ [.cerr ("Failed to set Python home directory: ".toList ++ status.err_msg),
      .PyConfig_Clear], some "Failed to set Python home directory".toList⟩
  else
    let config := { config with home := some (wc_str (wstring pythonHome)) }
    let status := env.api.PyWideStringList_Append config.module_search_paths
      (wc_str (wstring pythonZipPath))
    let t3 := t2 ++ [.PyWideStringList_Append (wc_str (wstring pythonZipPath))]
    if status.exception then
      ⟨t3 ++ [.cerr ("Failed to append Python module search paths: ".toList ++ status.err_msg),
        .PyConfig_Clear], some "Failed to append Python module search paths".toList⟩
    else
      let config := { config with
        module_search_paths := config.module_search_paths ++ [wc_str (wstring pythonZipPath)] }
      let status := env.api.PyWideStringList_Append config.module_search_paths
        (wc_str (wstring sitePackages))
      let t4 := t3 ++ [.PyWideStringList_Append (wc_str (wstring sitePackages))]
      if status.exception then
        ⟨t4 ++ [.cerr ("Failed to append Python module search paths: ".toList ++ status.err_msg),
          .PyConfig_Clear], some "Failed to append Python module search paths".toList⟩
      else
        let config := { config with
          module_search_paths := config.module_search_paths ++ [wc_str (wstring sitePackages)] }
        let status := env.api.Py_InitializeFromConfig config
        let t5 := t4 ++ [.Py_InitializeFromConfig config]
        if status.exception then
          ⟨t5 ++ [.cerr ("Failed to initialize Python interpreter: ".toList ++ status.err_msg),
            .PyConfig_Clear], some "Failed to initialize Python interpreter".toList⟩
        else
          ⟨t5 ++ [.PyConfig_Clear], none⟩

/-- Lines 137-153 of `interpreterFunction`: the idle loop inside its `try`, the
two handlers, and `py::finalize_interpreter()`. -/
def interpreterIdle (env : WorkerEnv) : List Event :=
  let loop := List.replicate env.iterations Event.gil_release_sleep
  let caught : List Event :=
    match env.loopExit with
    | .flagCleared => []
    | .exception what =>
      [.cerr ("Exception occurred in Python interpreter thread: ".toList ++ what)]
    | .unknownException =>
      [.cerr "Unknown exception occurred in Python interpreter thread.".toList]
  loop ++ caught ++ [.finalize_interpreter]

/-- The process as the controller sees it: the globals `isRunning` and
`interpreterThread` (the worker the handle owns while it is joinable, workers
being numbered in spawn order), the number of workers spawned, the workers
spawned and not yet joined, what has been written and called so far, and whether
`std::terminate` has been called. -/
structure Process where
  isRunning : Bool
  interpreterThread : Option Nat
  spawned : Nat
  unjoined : List Nat
  trace : List Event
  terminated : Bool
  deriving DecidableEq, Repr

/-- The process at load time: `isRunning(false)` and a default-constructed
`interpreterThread`. -/
def Process.initial : Process := ⟨false, none, 0, [], [], false⟩

/-- `interpreterThread = std::thread(interpreterFunction);` when the constructor
succeeds. The constructor starts a new worker; the move assignment calls
`std::terminate` when the handle is still joinable. The new worker runs its
setup at once; an exception that leaves `interpreterFunction` leaves the thread
function, which calls `std::terminate` as well. -/
def assignThread (env : WorkerEnv) (s : Process) : Process :=
  let id := s.spawned
  let s1 := { s with spawned := id + 1, unjoined := s.unjoined ++ [id] }
  match s.interpreterThread with
  | some _ => { s1 with terminated := true }
  | none =>
    let setup := interpreterSetup env
    { s1 with interpreterThread := some id, trace := s1.trace ++ setup.trace,
              terminated := setup.threw.isSome }

/-- `if (interpreterThread.joinable()) interpreterThread.join();`, called once
`isRunning` is false: a worker whose setup succeeded leaves its loop and
finalizes. -/
def joinThread (env : WorkerEnv) (s : Process) : Process :=
  match s.interpreterThread with
  | none => s
  | some id =>
    { s with interpreterThread := none, unjoined := s.unjoined.erase id,
             trace := s.trace ++
               (if (interpreterSetup env).threw.isSome then [] else interpreterIdle env) }

namespace pyfx

/-- `pyfx::running` (lines 157-160). -/
def running (s : Process) : Bool :=
  s.isRunning

/-- `pyfx::start` (lines 162-168), for a `std::thread` constructor that
succeeds: the function has no handler for one that throws. -/
def start (env : WorkerEnv) (s : Process) : Process :=
  if !s.isRunning then assignThread env { s with isRunning := true } else s

/-- `pyfx::stop` (lines 170-178). -/
def stop (env : WorkerEnv) (s : Process) : Process :=
  if s.isRunning then joinThread env { s with isRunning := false } else s

end pyfx

/-- The `ul_reason_for_call` of `DllMain`. -/
inductive Reason where
  | DLL_PROCESS_ATTACH
  | DLL_PROCESS_DETACH
  | DLL_THREAD_ATTACH
  | DLL_THREAD_DETACH
  deriving DecidableEq, Repr

/-- How the `std::thread` constructor of line 188 ends: the thread is started,
or the constructor throws a `std::exception` with the text `what`. -/
inductive ThreadCtor where
  | started
  | threw (what : Str)
  deriving DecidableEq, Repr

/-- `DllMain` (lines 181-209): the process afterwards and the `BOOL` returned.
`ctor` is read on `DLL_PROCESS_ATTACH` only: when the constructor throws,
`isRunning` is already true, the handler of lines 190-193 writes its message and
returns `FALSE`, and no worker exists. -/
def DllMain (env : WorkerEnv) (ul_reason_for_call : Reason) (ctor : ThreadCtor) (s : Process) :
    Process × Bool :=
  match ul_reason_for_call with
  | .DLL_PROCESS_ATTACH =>
    match ctor with
    | .started => (assignThread env { s with isRunning := true }, true)
    | .threw what =>
      ({ s with isRunning := true,
                trace := s.trace ++
                  [.cerr ("Failed to start interpreter thread: ".toList ++ what)] }, false)
  | .DLL_PROCESS_DETACH => (joinThread env { s with isRunning := false }, true)
  | .DLL_THREAD_ATTACH => (s, true)
  | .DLL_THREAD_DETACH => (s, true)

/-- A call the host makes: `start()`, `stop()`, the attach event (with the
outcome of its thread constructor) and the detach event. -/
inductive Op where
  | start
  | stop
  | attach (ctor : ThreadCtor)
  | detach
  deriving DecidableEq, Repr

/-- One call of the host on the process. -/
def step (env : WorkerEnv) (s : Process) : Op → Process
  | .start => pyfx.start env s
  | .stop => pyfx.stop env s
  | .attach ctor => (DllMain env .DLL_PROCESS_ATTACH ctor s).1
  | .detach => (DllMain env .DLL_PROCESS_DETACH .started s).1

/-- A sequence of calls; nothing more happens once the process has terminated. -/
def run (env : WorkerEnv) : Process → List Op → Process
  | s, [] => s
  | s, op :: ops => if s.terminated then s else run env (step env s op) ops

/-- Whether the event is a `Py_InitializeFromConfig`. -/
def Event.isInitialize : Event → Bool
  | .Py_InitializeFromConfig _ => true
  | _ => false

/-- Whether some `Py_InitializeFromConfig` of the trace comes after a
`finalize_interpreter`. -/
def initAfterFinalize : List Event → Bool
  | [] => false
  | .finalize_interpreter :: rest => rest.any Event.isInitialize || initAfterFinalize rest
  | _ :: rest => initAfterFinalize rest

/-- Every character of `s` is a 7-bit character other than NUL. -/
def PlainAscii (s : Str) : Prop :=
  ∀ c ∈ s, 0 < c.toNat ∧ c.toNat < 128

instance PlainAscii.decidable (s : Str) : Decidable (PlainAscii s) := by
  unfold PlainAscii
  infer_instance

/-- The invariant of the trace while at most one worker has been spawned:
before the spawn nothing is finalized and the handle is empty; after it no
initialization follows a finalization, and the handle is empty once the worker
has finalized. -/
def SingleRun (s : Process) : Prop :=
  (s.spawned = 0 → Event.finalize_interpreter ∉ s.trace ∧ s.interpreterThread = none) ∧
  (s.spawned = 1 → initAfterFinalize s.trace = false ∧
    (Event.finalize_interpreter ∉ s.trace ∨ s.interpreterThread = none))

/-- A runtime in which every call succeeds. -/
def okApi : PyApi :=
  ⟨fun _ => ⟨false, []⟩, fun _ _ => ⟨false, []⟩, fun _ => ⟨false, []⟩⟩

/-- The configuration `home=C:\rt`, `lib=C:\rt\lib`, `site=C:\rt\site`, a runtime
in which every call succeeds, one idle iteration. -/
def sampleEnv : WorkerEnv :=
  { configPath := "PyFX.config".toList
    file := some ["[Paths]".toList, "python_home_dir = C:\\rt".toList,
      "lib_dir = C:\\rt\\lib".toList, "site_packages_dir = C:\\rt\\site".toList]
    api := okApi
    iterations := 1
    loopExit := .flagCleared }

/-- The trimmed text `t` is a key/value line: it contains `=`, with `a` the text
before the first `=` and `b` the text after it, it does not start with `#` and
it is not of the form `[` ... `]`. -/
def KeyValueText (t a b : Str) : Prop :=
  t = a ++ '=' :: b ∧ '=' ∉ a ∧ t.head? ≠ some '#' ∧ ¬ ∃ name, t = '[' :: (name ++ [']'])

/-- The key `k` as scoped by section `s`: `s.k` when a section is open
(`s` non-empty), `k` itself otherwise. -/
def scopedKey (s k : Str) : Str :=
  if s = [] then k else s ++ '.' :: k

/-- The reading of "malformed line" that is to be checked: the trimmed text `t`
contains no `=`, or it starts with `[` without ending in `]`, or it ends with
`]` without starting with `[`. -/
def MalformedText (t : Str) : Prop :=
  '=' ∉ t ∨ (t.head? = some '[' ∧ t.getLast? ≠ some ']') ∨
    (t.getLast? = some ']' ∧ t.head? ≠ some '[')

/-- Line `m`, read after the lines `pre` and before the lines `post`, holds the
latest occurrence of its key `a` in its section: no key/value line of `post`
that is read in the same section has the same trimmed key. -/
def LatestInSection (pre : List Str) (m : Str) (post : List Str) (a : Str) : Prop :=
  ∀ (j : Nat) (m' a' b' : Str), post[j]? = some m' → KeyValueText (trim m') a' b' →
    (loadLines ⟨[], []⟩ (pre ++ m :: post.take j)).currentSection
      = (loadLines ⟨[], []⟩ pre).currentSection →
    trim a' ≠ trim a

/-! ## Lemmas on strings and on the store -/

theorem firstIdx_append_cons (p : Char → Bool) (a b : Str) (c : Char)
    (ha : ∀ x ∈ a, p x = false) (hc : p c = true) :
    firstIdx p (a ++ c :: b) = some a.length := by
  induction a with
  | nil => simp [firstIdx, hc]
  | cons x xs ih =>
    have hx : p x = false := ha x (List.mem_cons_self _ _)
    have hxs : ∀ y ∈ xs, p y = false := fun y hy => ha y (List.mem_cons_of_mem _ hy)
    simp [firstIdx, hx, ih hxs]

theorem firstIdx_eq_none (p : Char → Bool) (s : Str) (h : ∀ x ∈ s, p x = false) :
    firstIdx p s = none := by
  induction s with
  | nil => rfl
  | cons x xs ih =>
    have hx : p x = false := h x (List.mem_cons_self _ _)
    simp [firstIdx, hx, ih (fun y hy => h y (List.mem_cons_of_mem _ hy))]

theorem find_first_eq (a b : Str) (h : '=' ∉ a) : find (a ++ '=' :: b) '=' = some a.length := by
  apply firstIdx_append_cons
  · intro x hx
    have : x ≠ '=' := fun e => h (e ▸ hx)
    simpa using this
  · simp

theorem find_eq_none (s : Str) (h : '=' ∉ s) : find s '=' = none := by
  apply firstIdx_eq_none
  intro x hx
  have : x ≠ '=' := fun e => h (e ▸ hx)
  simpa using this

theorem substr_key (a b : Str) : substr (a ++ '=' :: b) 0 a.length = a := by
  simp [substr]

theorem substrFrom_value (a b : Str) : substrFrom (a ++ '=' :: b) (a.length + 1) = b := by
  simp [substrFrom]

theorem substr_header (name : Str) :
    substr ('[' :: (name ++ [']'])) 1 (('[' :: (name ++ [']'])).length - 2) = name := by
  simp [substr]

theorem getLast_header (c z : Char) (name : Str) : (c :: (name ++ [z])).getLast? = some z := by
  rw [← List.cons_append]
  exact List.getLast?_concat _

theorem header_test (name : Str) :
    (('[' :: (name ++ [']'])).head? == some '[' && ('[' :: (name ++ [']'])).getLast? == some ']')
      = true := by
  rw [getLast_header]
  simp

theorem header_shape (line : Str)
    (h : (line.head? == some '[' && line.getLast? == some ']') = true) :
    ∃ name, line = '[' :: (name ++ [']']) := by
  simp only [Bool.and_eq_true, beq_iff_eq] at h
  obtain ⟨h1, h2⟩ := h
  match line, h1, h2 with
  | c :: rest, h1, h2 =>
    simp only [List.head?_cons, Option.some.injEq] at h1
    subst h1
    rcases List.eq_nil_or_concat rest with hr | ⟨name, z, hr⟩
    · subst hr
      simp at h2
    · subst hr
      rw [List.concat_eq_append, getLast_header] at h2
      simp only [Option.some.injEq] at h2
      subst h2
      exact ⟨name, by simp⟩

theorem Store.find_assign_same (m : Store) (k v : Str) : (m.assign k v).find k = some v := by
  simp [Store.assign, Store.find]

theorem Store.find_erase_ne (m : Store) (k k' : Str) (h : k' ≠ k) :
    Store.find (m.erase k) k' = Store.find m k' := by
  induction m with
  | nil => rfl
  | cons p rest ih =>
    obtain ⟨pk, pv⟩ := p
    by_cases hp : pk = k
    · subst hp
      have : pk ≠ k' := fun e => h e.symm
      simp [Store.erase, Store.find, this, ih]
    · by_cases hk : pk = k'
      · subst hk
        simp [Store.erase, Store.find, hp]
      · simp [Store.erase, Store.find, hp, hk, ih]

theorem Store.find_assign_other (m : Store) (k v k' : Str) (h : k' ≠ k) :
    (m.assign k v).find k' = m.find k' := by
  have hk : k ≠ k' := fun e => h e.symm
  simp [Store.assign, Store.find, hk, Store.find_erase_ne m k k' h]

theorem keyValueText_ne_nil {t a b : Str} (h : KeyValueText t a b) : t ≠ [] := by
  obtain ⟨h1, -⟩ := h
  rw [h1]
  simp

/-- The loop body on a key/value line, in terms of the text before and after the
first `=`. -/
theorem loadLine_keyValue (st : LoadState) (raw a b : Str) (h : KeyValueText (trim raw) a b) :
    loadLine st raw =
      ⟨st.currentSection, st.configData.assign (scopedKey st.currentSection (trim a)) (trim b)⟩ := by
  have hne := keyValueText_ne_nil h
  obtain ⟨h1, h2, h3, h4⟩ := h
  have hhead : ((trim raw).isEmpty || (trim raw).head? == some '#') = false := by
    have : (trim raw).isEmpty = false := by
      cases ht : trim raw with
      | nil => exact absurd ht hne
      | cons c cs => rfl
    simp [this, h3]
  have hsec : ((trim raw).head? == some '[' && (trim raw).getLast? == some ']') = false := by
    cases hb : ((trim raw).head? == some '[' && (trim raw).getLast? == some ']') with
    | false => rfl
    | true => exact absurd (header_shape _ hb) h4
  have hfind : find (trim raw) '=' = some a.length := by
    rw [h1]
    exact find_first_eq a b h2
  have hk : substr (trim raw) 0 a.length = a := by
    rw [h1]
    exact substr_key a b
  have hv : substrFrom (trim raw) (a.length + 1) = b := by
    rw [h1]
    exact substrFrom_value a b
  unfold loadLine
  simp only [hhead, hsec, hfind, hk, hv]
  cases hs : st.currentSection with
  | nil => simp [scopedKey]
  | cons c cs => simp [scopedKey]

/-- The loop body on a section header `[name]`. -/
theorem loadLine_header (st : LoadState) (raw name : Str)
    (h : trim raw = '[' :: (name ++ [']'])) :
    loadLine st raw = ⟨name, st.configData⟩ := by
  unfold loadLine
  simp only [h, header_test, substr_header]
  simp

/-- The loop body on a line that is skipped: blank or a comment. -/
theorem loadLine_comment (st : LoadState) (raw : Str)
    (h : trim raw = [] ∨ (trim raw).head? = some '#') : loadLine st raw = st := by
  unfold loadLine
  rcases h with h | h
  · simp [h]
  · simp [h]

theorem not_header_of_head {t : Str} (h : t.head? ≠ some '[') :
    ¬ ∃ name, t = '[' :: (name ++ [']']) := by
  rintro ⟨name, hn⟩
  apply h
  rw [hn]
  rfl

theorem not_header_of_last {t : Str} (h : t.getLast? ≠ some ']') :
    ¬ ∃ name, t = '[' :: (name ++ [']']) := by
  rintro ⟨name, hn⟩
  apply h
  rw [hn]
  exact getLast_header _ _ _

/-- The loop body on a line without `=` that is not a section header. -/
theorem loadLine_skip (st : LoadState) (raw : Str) (h1 : '=' ∉ trim raw)
    (h2 : ¬ ∃ name, trim raw = '[' :: (name ++ [']'])) : loadLine st raw = st := by
  have hsec : ((trim raw).head? == some '[' && (trim raw).getLast? == some ']') = false := by
    cases hb : ((trim raw).head? == some '[' && (trim raw).getLast? == some ']') with
    | false => rfl
    | true => exact absurd (header_shape _ hb) h2
  unfold loadLine
  simp only [hsec, find_eq_none _ h1]
  simp

theorem loadLines_append (st : LoadState) (l1 l2 : List Str) :
    loadLines st (l1 ++ l2) = loadLines (loadLines st l1) l2 := by
  simp [loadLines, List.foldl_append]

theorem loadLines_comments (st : LoadState) (lines : List Str)
    (h : ∀ l ∈ lines, trim l = [] ∨ (trim l).head? = some '#') : loadLines st lines = st := by
  induction lines generalizing st with
  | nil => rfl
  | cons l ls ih =>
    have hl := loadLine_comment st l (h l (List.mem_cons_self _ _))
    have := ih st (fun x hx => h x (List.mem_cons_of_mem _ hx))
    simpa [loadLines, hl] using this

theorem firstIdx_some_split (p : Char → Bool) (s : Str) (i : Nat) (h : firstIdx p s = some i) :
    ∃ a c b, s = a ++ c :: b ∧ (∀ x ∈ a, p x = false) ∧ p c = true := by
  induction s generalizing i with
  | nil => simp [firstIdx] at h
  | cons x xs ih =>
    by_cases hx : p x = true
    · exact ⟨[], x, xs, rfl, by simp, hx⟩
    · simp only [firstIdx, hx] at h
      cases hr : firstIdx p xs with
      | none => simp [hr] at h
      | some j =>
        obtain ⟨a, c, b, h1, h2, h3⟩ := ih j hr
        refine ⟨x :: a, c, b, by simp [h1], ?_, h3⟩
        intro y hy
        rcases List.mem_cons.1 hy with e | e
        · subst e
          simpa using hx
        · exact h2 y e

theorem split_unique (c : Char) (a b a' b' : Str) (h : a ++ c :: b = a' ++ c :: b')
    (ha : c ∉ a) (ha' : c ∉ a') : a = a' ∧ b = b' := by
  induction a generalizing a' with
  | nil =>
    cases a' with
    | nil => simpa using h
    | cons y ys =>
      simp only [List.nil_append, List.cons_append, List.cons.injEq] at h
      exact absurd (h.1 ▸ List.mem_cons_self _ _) ha'
  | cons x xs ih =>
    cases a' with
    | nil =>
      simp only [List.nil_append, List.cons_append, List.cons.injEq] at h
      exact absurd (h.1 ▸ List.mem_cons_self _ _) ha
    | cons y ys =>
      simp only [List.cons_append, List.cons.injEq] at h
      obtain ⟨h1, h2⟩ := ih ys h.2 (fun hm => ha (List.mem_cons_of_mem _ hm))
        (fun hm => ha' (List.mem_cons_of_mem _ hm))
      exact ⟨by rw [h.1, h1], h2⟩

/-- The loop body either leaves the store alone or reads a key/value line. -/
theorem loadLine_cases (st : LoadState) (raw : Str) :
    (loadLine st raw).configData = st.configData ∨ ∃ a b, KeyValueText (trim raw) a b := by
  by_cases hc : ((trim raw).isEmpty || (trim raw).head? == some '#') = true
  · left
    unfold loadLine
    simp only [hc]
    rfl
  · by_cases hh : ((trim raw).head? == some '[' && (trim raw).getLast? == some ']') = true
    · left
      unfold loadLine
      simp only [hc, hh]
      rfl
    · cases hf : find (trim raw) '=' with
      | none =>
        left
        unfold loadLine
        simp only [hc, hh, hf]
        rfl
      | some pos =>
        right
        obtain ⟨a, c, b, h1, h2, h3⟩ := firstIdx_some_split _ _ _ hf
        have hceq : c = '=' := by simpa using h3
        subst hceq
        refine ⟨a, b, h1, ?_, ?_, ?_⟩
        · intro hmem
          have := h2 _ hmem
          simp at this
        · intro hhead
          apply hc
          simp [hhead]
        · rintro ⟨name, hn⟩
          apply hh
          rw [hn]
          exact header_test name

theorem scopedKey_inj (s k k' : Str) (h : scopedKey s k = scopedKey s k') : k = k' := by
  unfold scopedKey at h
  by_cases hs : s = []
  · simpa [hs] using h
  · simpa [hs] using h

/-- A stored value survives the lines that store under other keys. -/
theorem find_preserved (st0 : LoadState) (key v : Str) (post : List Str)
    (h0 : st0.configData.find key = some v)
    (H : ∀ (j : Nat) (m' a' b' : Str), post[j]? = some m' → KeyValueText (trim m') a' b' →
      scopedKey (loadLines st0 (post.take j)).currentSection (trim a') ≠ key) :
    (loadLines st0 post).configData.find key = some v := by
  induction post using List.reverseRecOn with
  | nil => exact h0
  | append_singleton xs x ih =>
    have hxs : (loadLines st0 xs).configData.find key = some v := by
      apply ih
      intro j m' a' b' hj hkv
      have hlt : j < xs.length := by
        rcases Nat.lt_or_ge j xs.length with h | h
        · exact h
        · rw [List.getElem?_eq_none h] at hj
          exact absurd hj (by simp)
      have h1 : (xs ++ [x])[j]? = some m' := by
        rw [List.getElem?_append_left hlt]
        exact hj
      have h2 := H j m' a' b' h1 hkv
      have h3 : (xs ++ [x]).take j = xs.take j := by
        rw [List.take_append_of_le_length (Nat.le_of_lt hlt)]
      rw [h3] at h2
      exact h2
    have hstep : loadLines st0 (xs ++ [x]) = loadLine (loadLines st0 xs) x := by
      simp [loadLines, List.foldl_append]
    rw [hstep]
    rcases loadLine_cases (loadLines st0 xs) x with hsame | ⟨a', b', hkv⟩
    · rw [hsame]
      exact hxs
    · rw [loadLine_keyValue _ x a' b' hkv]
      have h1 : (xs ++ [x])[xs.length]? = some x := by simp
      have h2 := H xs.length x a' b' h1 hkv
      have h3 : (xs ++ [x]).take xs.length = xs := by simp
      rw [h3] at h2
      show Store.find (Store.assign _ _ _) key = some v
      rw [Store.find_assign_other _ _ _ _ (fun e => h2 e.symm)]
      exact hxs

theorem Store.keys_erase (m : Store) (k k' : Str) (h : k' ∈ (m.erase k).map Prod.fst) :
    k' ∈ m.map Prod.fst ∧ k' ≠ k := by
  induction m with
  | nil => simp [Store.erase] at h
  | cons p rest ih =>
    obtain ⟨pk, pv⟩ := p
    by_cases hp : pk = k
    · simp only [Store.erase, hp, if_true] at h
      exact ⟨List.mem_cons_of_mem _ (ih h).1, (ih h).2⟩
    · simp only [Store.erase, hp, if_false, List.map_cons, List.mem_cons] at h
      rcases h with h | h
      · subst h
        exact ⟨List.mem_cons_self _ _, hp⟩
      · exact ⟨List.mem_cons_of_mem _ (ih h).1, (ih h).2⟩

theorem Store.erase_keys_nodup (m : Store) (k : Str) (h : (m.map Prod.fst).Nodup) :
    ((m.erase k).map Prod.fst).Nodup := by
  induction m with
  | nil => simp [Store.erase]
  | cons p rest ih =>
    obtain ⟨pk, pv⟩ := p
    simp only [List.map_cons, List.nodup_cons] at h
    by_cases hp : pk = k
    · simpa [Store.erase, hp] using ih h.2
    · simp only [Store.erase, hp, if_false, List.map_cons, List.nodup_cons]
      exact ⟨fun hm => h.1 (Store.keys_erase rest k pk hm).1, ih h.2⟩

theorem Store.assign_keys_nodup (m : Store) (k v : Str) (h : (m.map Prod.fst).Nodup) :
    ((m.assign k v).map Prod.fst).Nodup := by
  simp only [Store.assign, List.map_cons, List.nodup_cons]
  exact ⟨fun hm => (Store.keys_erase m k k hm).2 rfl, Store.erase_keys_nodup m k h⟩

theorem Store.find_of_mem (m : Store) (k v : Str) (hn : (m.map Prod.fst).Nodup)
    (h : (k, v) ∈ m) : m.find k = some v := by
  induction m with
  | nil => simp at h
  | cons p rest ih =>
    obtain ⟨pk, pv⟩ := p
    simp only [List.map_cons, List.nodup_cons] at hn
    rcases List.mem_cons.1 h with h | h
    · simp only [Prod.mk.injEq] at h
      simp [Store.find, h.1, h.2]
    · have hne : pk ≠ k := by
        intro e
        apply hn.1
        rw [e]
        exact List.mem_map_of_mem Prod.fst h
      simp [Store.find, hne, ih hn.2 h]

theorem Store.find_of_not_mem (m : Store) (k : Str) (h : ∀ v, (k, v) ∉ m) :
    m.find k = none := by
  induction m with
  | nil => rfl
  | cons p rest ih =>
    obtain ⟨pk, pv⟩ := p
    have hne : pk ≠ k := fun e => h pv (e ▸ List.mem_cons_self _ _)
    simp [Store.find, hne, ih (fun v hv => h v (List.mem_cons_of_mem _ hv))]

theorem loadLine_keys_nodup (st : LoadState) (raw : Str)
    (h : (st.configData.map Prod.fst).Nodup) :
    ((loadLine st raw).configData.map Prod.fst).Nodup := by
  rcases loadLine_cases st raw with hsame | ⟨a, b, hkv⟩
  · rw [hsame]
    exact h
  · rw [loadLine_keyValue st raw a b hkv]
    exact Store.assign_keys_nodup _ _ _ h

theorem loadLines_keys_nodup (lines : List Str) (st : LoadState)
    (h : (st.configData.map Prod.fst).Nodup) :
    ((loadLines st lines).configData.map Prod.fst).Nodup := by
  induction lines generalizing st with
  | nil => exact h
  | cons l ls ih => exact ih (loadLine st l) (loadLine_keys_nodup st l h)

/-! ## ConfigParser: the claims -/

/-- C1: section scoping and key/value storage. On a key/value line (trimmed text
non-empty, not a comment, not `[`...`]`, containing `=`) the loop body keeps the
current section, stores the trimmed text after the first `=` under the trimmed
text before it, prefixed with `s.` when a section `s` is open and unprefixed
otherwise, and changes no other key. On a line `[name]` it sets the current
section to `name` and leaves the store alone, so that a following key/value line
is stored under `name.key`. -/
theorem load_section_scoping (st : LoadState) (raw : Str) :
    (∀ a b : Str, KeyValueText (trim raw) a b →
      (loadLine st raw).currentSection = st.currentSection ∧
      (st.currentSection ≠ [] →
        (loadLine st raw).configData.find (st.currentSection ++ '.' :: trim a) = some (trim b)) ∧
      (st.currentSection = [] →
        (loadLine st raw).configData.find (trim a) = some (trim b)) ∧
      ∀ k, k ≠ scopedKey st.currentSection (trim a) →
        (loadLine st raw).configData.find k = st.configData.find k) ∧
    (∀ name : Str, trim raw = '[' :: (name ++ [']']) →
      loadLine st raw = ⟨name, st.configData⟩ ∧
      ∀ next a b : Str, KeyValueText (trim next) a b → name ≠ [] →
        (loadLine (loadLine st raw) next).configData.find (name ++ '.' :: trim a)
          = some (trim b)) := by
  refine ⟨fun a b h => ?_, fun name h => ?_⟩
  · rw [loadLine_keyValue st raw a b h]
    refine ⟨rfl, fun hs => ?_, fun hs => ?_, fun k hk => ?_⟩
    · have : scopedKey st.currentSection (trim a) = st.currentSection ++ '.' :: trim a := by
        simp [scopedKey, hs]
      rw [← this]
      exact Store.find_assign_same _ _ _
    · have : scopedKey st.currentSection (trim a) = trim a := by
        simp [scopedKey, hs]
      rw [this]
      exact Store.find_assign_same _ _ _
    · exact Store.find_assign_other _ _ _ _ hk
  · refine ⟨loadLine_header st raw name h, fun next a b hkv hne => ?_⟩
    rw [loadLine_header st raw name h, loadLine_keyValue _ next a b hkv]
    have : scopedKey name (trim a) = name ++ '.' :: trim a := by
      simp [scopedKey, hne]
    simp only [this]
    exact Store.find_assign_same _ _ _

/-- C1 at `lib_dir = x` read inside section `Paths`. -/
theorem load_section_scoping_witness :
    (loadLine ⟨"Paths".toList, []⟩ " lib_dir = x ".toList).configData.find "Paths.lib_dir".toList
      = some "x".toList :=
  ((load_section_scoping ⟨"Paths".toList, []⟩ " lib_dir = x ".toList).1
    "lib_dir ".toList " x".toList
    ⟨by decide, by decide, by decide, not_header_of_head (by decide)⟩).2.1 (by decide)

/-- C10: a file of blank lines and comments only yields an empty store, on which
`get` returns the default; and on the store of every file `get` is total: it
returns the value stored with the key when the key is in the store, and the
given default when it is not. -/
theorem comments_only_empty_store :
    (∀ lines : List Str, (∀ l ∈ lines, trim l = [] ∨ (trim l).head? = some '#') →
      ConfigParser.new.load (some lines) = (true, ⟨[]⟩) ∧
      ∀ k d : Str, (ConfigParser.new.load (some lines)).2.get k d = d) ∧
    (∀ (lines : List Str) (k d v : Str),
      (k, v) ∈ (ConfigParser.new.load (some lines)).2.configData →
      (ConfigParser.new.load (some lines)).2.get k d = v) ∧
    (∀ (lines : List Str) (k d : Str),
      (∀ v, (k, v) ∉ (ConfigParser.new.load (some lines)).2.configData) →
      (ConfigParser.new.load (some lines)).2.get k d = d) := by
  refine ⟨fun lines h => ?_, fun lines k d v h => ?_, fun lines k d h => ?_⟩
  · have hl : ConfigParser.new.load (some lines) = (true, ⟨[]⟩) := by
      simp [ConfigParser.load, ConfigParser.new, loadLines_comments _ lines h]
    refine ⟨hl, fun k d => ?_⟩
    rw [hl]
    rfl
  · have hn : ((loadLines ⟨[], []⟩ lines).configData.map Prod.fst).Nodup :=
      loadLines_keys_nodup lines _ List.nodup_nil
    have hf := Store.find_of_mem _ k v hn h
    simp only [ConfigParser.load, ConfigParser.new] at hf ⊢
    simp [ConfigParser.get, hf]
  · have hf := Store.find_of_not_mem _ k h
    simp only [ConfigParser.load, ConfigParser.new] at hf ⊢
    simp [ConfigParser.get, hf]

/-- C10 at a file of one blank line and one comment, and at a file that stores
`v` under `s.k`. -/
theorem comments_only_empty_store_witness :
    (ConfigParser.new.load (some ["  ".toList, "# note".toList])).2.get "k".toList "default".toList
      = "default".toList ∧
    (ConfigParser.new.load (some ["[s]".toList, "k = v".toList])).2.get "s.k".toList
      "default".toList = "v".toList ∧
    (ConfigParser.new.load (some ["[s]".toList, "k = v".toList])).2.get "k".toList
      "default".toList = "default".toList :=
  ⟨(comments_only_empty_store.1 ["  ".toList, "# note".toList] (by decide)).2 _ _,
   comments_only_empty_store.2.1 ["[s]".toList, "k = v".toList] _ _ _ (by decide),
   comments_only_empty_store.2.2 ["[s]".toList, "k = v".toList] _ _ (fun v hv => by
     have hs : (ConfigParser.new.load (some ["[s]".toList, "k = v".toList])).2.configData
         = [("s.k".toList, "v".toList)] := by decide
     rw [hs] at hv
     exact absurd (Prod.mk.inj (List.mem_singleton.1 hv)).1 (by decide))⟩

/-- C3 as stated fails: the line `a=b]` ends with `]` without starting with `[`,
yet it is not skipped: it stores `b]` under `a`. -/
theorem malformed_line_stored :
    MalformedText (trim "a=b]".toList) ∧
    ConfigParser.new.load (some ([] ++ ["a=b]".toList] ++ []))
      ≠ ConfigParser.new.load (some ([] ++ [])) ∧
    (ConfigParser.new.load (some ([] ++ ["a=b]".toList] ++ []))).2.get "a".toList []
      = "b]".toList := by
  refine ⟨Or.inr (Or.inr ⟨by decide, by decide⟩), by decide, by decide⟩

/-- C3, amended: a line whose trimmed text contains no `=` and is not a complete
section header `[name]` (an unmatched bracket without `=` is such a line) is
skipped: the loop body changes neither the store nor the current section, and
the file with the line parses as the file without it. -/
theorem malformed_line_skipped (p : ConfigParser) (l1 l2 : List Str) (m : Str)
    (h1 : '=' ∉ trim m) (h2 : ¬ ∃ name, trim m = '[' :: (name ++ [']'])) :
    (∀ st : LoadState, loadLine st m = st) ∧
    p.load (some (l1 ++ [m] ++ l2)) = p.load (some (l1 ++ l2)) := by
  refine ⟨fun st => loadLine_skip st m h1 h2, ?_⟩
  have hm : ∀ st : LoadState, loadLines st [m] = st := fun st => by
    simp [loadLines, loadLine_skip _ m h1 h2]
  have hl : ∀ st : LoadState, loadLines st (l1 ++ [m] ++ l2) = loadLines st (l1 ++ l2) :=
    fun st => by rw [loadLines_append, loadLines_append, hm, ← loadLines_append]
  simp only [ConfigParser.load, hl]

/-- C3, amended, at the unmatched header `[Paths` between `[A]` and `k=v`. -/
theorem malformed_line_skipped_witness :
    '=' ∉ trim "[Paths".toList ∧
    ConfigParser.new.load (some (["[A]".toList] ++ ["[Paths".toList] ++ ["k=v".toList]))
      = ConfigParser.new.load (some (["[A]".toList] ++ ["k=v".toList])) :=
  ⟨by decide,
   (malformed_line_skipped ConfigParser.new ["[A]".toList] ["k=v".toList] "[Paths".toList
      (by decide) (not_header_of_last (by decide))).2⟩

/-- C2 as stated fails: in `[A]`, `b.c=1`, `b.c=2`, `[A.b]`, `c=3` the key `b.c`
occurs twice in section `A`, the later occurrence has the value `2` and no later
line of section `A` has that key, yet `get("A.b.c", d)` returns `3`: the line
`c=3` of section `A.b` is stored under the same dotted key. -/
theorem duplicate_key_shadowed :
    KeyValueText (trim "b.c=1".toList) "b.c".toList "1".toList ∧
    KeyValueText (trim "b.c=2".toList) "b.c".toList "2".toList ∧
    (loadLines ⟨[], []⟩ ["[A]".toList]).currentSection = "A".toList ∧
    (loadLines ⟨[], []⟩ ["[A]".toList, "b.c=1".toList]).currentSection = "A".toList ∧
    LatestInSection ["[A]".toList, "b.c=1".toList] "b.c=2".toList
      ["[A.b]".toList, "c=3".toList] "b.c".toList ∧
    (ConfigParser.new.load (some (["[A]".toList, "b.c=1".toList] ++
      "b.c=2".toList :: ["[A.b]".toList, "c=3".toList]))).2.get "A.b.c".toList []
        = "3".toList ∧
    (ConfigParser.new.load (some (["[A]".toList, "b.c=1".toList] ++
      "b.c=2".toList :: ["[A.b]".toList, "c=3".toList]))).2.get "A.b.c".toList []
        ≠ trim "2".toList := by
  refine ⟨⟨by decide, by decide, by decide, not_header_of_head (by decide)⟩,
    ⟨by decide, by decide, by decide, not_header_of_head (by decide)⟩,
    by decide, by decide, ?_, by decide, by decide⟩
  intro j m' a' b' hj hkv hsec
  match j with
  | 0 =>
    simp only [List.getElem?_cons_zero, Option.some.injEq] at hj
    subst hj
    exact absurd ⟨"A.b".toList, by decide⟩ hkv.2.2.2
  | 1 =>
    exact absurd hsec (by decide)
  | (n + 2) =>
    simp at hj

/-- C2, amended: the value of the latest key/value line with key `k` in section
`s` is what `get(s.k, d)` returns, provided no later key/value line of another
section is stored under the same dotted key. -/
theorem duplicate_last_wins (pre post : List Str) (m a b d : Str)
    (hkv : KeyValueText (trim m) a b)
    (hlast : LatestInSection pre m post a)
    (hother : ∀ (j : Nat) (m' a' b' : Str), post[j]? = some m' →
      KeyValueText (trim m') a' b' →
      (loadLines ⟨[], []⟩ (pre ++ m :: post.take j)).currentSection
        ≠ (loadLines ⟨[], []⟩ pre).currentSection →
      scopedKey (loadLines ⟨[], []⟩ (pre ++ m :: post.take j)).currentSection (trim a')
        ≠ scopedKey (loadLines ⟨[], []⟩ pre).currentSection (trim a)) :
    (ConfigParser.new.load (some (pre ++ m :: post))).2.get
      (scopedKey (loadLines ⟨[], []⟩ pre).currentSection (trim a)) d = trim b := by
  have hsplit : ∀ l : List Str, loadLines ⟨[], []⟩ (pre ++ m :: l)
      = loadLines (loadLine (loadLines ⟨[], []⟩ pre) m) l := fun l => by
    simp [loadLines, List.foldl_append]
  have h0 : (loadLine (loadLines ⟨[], []⟩ pre) m).configData.find
      (scopedKey (loadLines ⟨[], []⟩ pre).currentSection (trim a)) = some (trim b) := by
    rw [loadLine_keyValue _ m a b hkv]
    exact Store.find_assign_same _ _ _
  have hfind := find_preserved (loadLine (loadLines ⟨[], []⟩ pre) m) _ (trim b) post h0
    (fun j m' a' b' hj hkv' => by
      rw [← hsplit]
      by_cases hs : (loadLines ⟨[], []⟩ (pre ++ m :: post.take j)).currentSection
          = (loadLines ⟨[], []⟩ pre).currentSection
      · rw [hs]
        intro e
        exact hlast j m' a' b' hj hkv' hs (scopedKey_inj _ _ _ e)
      · exact hother j m' a' b' hj hkv' hs)
  rw [← hsplit] at hfind
  simp [ConfigParser.load, ConfigParser.get, ConfigParser.new, hfind]

/-- C2, amended, at `[A]`, `k=1`, `k=2`, `[B]`, `k=3`: `get("A.k", d)` is `2`. -/
theorem duplicate_last_wins_witness :
    (ConfigParser.new.load (some (["[A]".toList, "k=1".toList] ++
      "k=2".toList :: ["[B]".toList, "k=3".toList]))).2.get "A.k".toList [] = "2".toList :=
  duplicate_last_wins ["[A]".toList, "k=1".toList] ["[B]".toList, "k=3".toList]
    "k=2".toList "k".toList "2".toList []
    ⟨by decide, by decide, by decide, not_header_of_head (by decide)⟩
    (fun j m' a' b' hj hkv hsec => by
      match j with
      | 0 =>
        simp only [List.getElem?_cons_zero, Option.some.injEq] at hj
        subst hj
        exact absurd ⟨"B".toList, by decide⟩ hkv.2.2.2
      | 1 => exact absurd hsec (by decide)
      | (n + 2) => simp at hj)
    (fun j m' a' b' hj hkv hsec => by
      match j with
      | 0 =>
        simp only [List.getElem?_cons_zero, Option.some.injEq] at hj
        subst hj
        exact absurd ⟨"B".toList, by decide⟩ hkv.2.2.2
      | 1 =>
        simp only [List.getElem?_cons_succ, List.getElem?_cons_zero, Option.some.injEq] at hj
        subst hj
        obtain ⟨h1, h2, -, -⟩ := hkv
        have ht : trim "k=3".toList = "k".toList ++ '=' :: "3".toList := by decide
        rw [ht] at h1
        obtain ⟨e, -⟩ := split_unique '=' _ _ _ _ h1 (by decide) h2
        rw [← e]
        decide
      | (n + 2) => simp at hj)

/-! ## The worker: lemmas -/

theorem initAfterFinalize_append_left (a b : List Event)
    (h : Event.finalize_interpreter ∉ a) : initAfterFinalize (a ++ b) = initAfterFinalize b := by
  induction a with
  | nil => rfl
  | cons e es ih =>
    have he : e ≠ Event.finalize_interpreter := fun x => h (x ▸ List.mem_cons_self _ _)
    have hes : Event.finalize_interpreter ∉ es := fun x => h (List.mem_cons_of_mem _ x)
    cases e <;> first | exact absurd rfl he | simpa [initAfterFinalize] using ih hes

theorem any_initialize_of_none (b : List Event) (h : ∀ e ∈ b, e.isInitialize = false) :
    b.any Event.isInitialize = false := by
  rw [List.any_eq_false]
  intro e he
  simp [h e he]

theorem initAfterFinalize_of_no_initialize (b : List Event)
    (h : ∀ e ∈ b, e.isInitialize = false) : initAfterFinalize b = false := by
  induction b with
  | nil => rfl
  | cons e es ih =>
    have hes : ∀ x ∈ es, x.isInitialize = false := fun x hx => h x (List.mem_cons_of_mem _ hx)
    cases e <;> simp [initAfterFinalize, ih hes]
    exact hes

theorem initAfterFinalize_append_right (a b : List Event)
    (h : ∀ e ∈ b, e.isInitialize = false) : initAfterFinalize (a ++ b) = initAfterFinalize a := by
  induction a with
  | nil =>
    simpa [initAfterFinalize] using initAfterFinalize_of_no_initialize b h
  | cons e es ih =>
    cases e <;>
      simp [initAfterFinalize, ih, List.any_append, any_initialize_of_none b h]

theorem idle_no_initialize (env : WorkerEnv) :
    ∀ e ∈ interpreterIdle env, e.isInitialize = false := by
  intro e he
  simp only [interpreterIdle, List.mem_append, List.mem_replicate, List.mem_singleton] at he
  rcases he with (⟨-, rfl⟩ | he) | rfl
  · rfl
  · cases hx : env.loopExit <;> simp [hx] at he <;> (subst he; rfl)
  · rfl

theorem setup_no_finalize (env : WorkerEnv) :
    Event.finalize_interpreter ∉ (interpreterSetup env).trace := by
  simp only [interpreterSetup]
  split_ifs <;> simp

theorem singleRun_assign (env : WorkerEnv) (s : Process) (b : Bool) (h : SingleRun s) :
    SingleRun (assignThread env { s with isRunning := b }) := by
  obtain ⟨r, th, sp, uj, tr, tm⟩ := s
  obtain ⟨h0, -⟩ := h
  simp only at h0
  cases th with
  | some id =>
    refine ⟨fun e => ?_, fun e => ?_⟩
    · simp [assignThread] at e
    · have hsp : sp = 0 := by simpa [assignThread] using e
      exact absurd (h0 hsp).2 (by simp)
  | none =>
    refine ⟨fun e => ?_, fun e => ?_⟩
    · simp [assignThread] at e
    · have hsp : sp = 0 := by simpa [assignThread] using e
      have hfin := (h0 hsp).1
      have h1 : initAfterFinalize (tr ++ (interpreterSetup env).trace) = false := by
        rw [initAfterFinalize_append_left _ _ hfin]
        have := initAfterFinalize_append_left (interpreterSetup env).trace []
          (setup_no_finalize env)
        simpa [initAfterFinalize] using this
      have h2 : Event.finalize_interpreter ∉ tr ++ (interpreterSetup env).trace := by
        intro hm
        rcases List.mem_append.1 hm with hm | hm
        · exact hfin hm
        · exact setup_no_finalize env hm
      exact ⟨by simpa [assignThread] using h1, Or.inl (by simpa [assignThread] using h2)⟩

theorem singleRun_join (env : WorkerEnv) (s : Process) (b : Bool) (h : SingleRun s) :
    SingleRun (joinThread env { s with isRunning := b }) := by
  obtain ⟨r, th, sp, uj, tr, tm⟩ := s
  obtain ⟨h0, h1⟩ := h
  simp only at h0 h1
  cases th with
  | none => exact ⟨h0, h1⟩
  | some id =>
    have htail : ∀ e ∈ (if (interpreterSetup env).threw.isSome = true then []
        else interpreterIdle env), e.isInitialize = false := by
      intro e he
      split_ifs at he
      · simp at he
      · exact idle_no_initialize env e he
    refine ⟨fun e => ?_, fun e => ?_⟩
    · have hsp : sp = 0 := by simpa [joinThread] using e
      exact absurd (h0 hsp).2 (by simp)
    · have hsp : sp = 1 := by simpa [joinThread] using e
      obtain ⟨h2, h3⟩ := h1 hsp
      refine ⟨?_, Or.inr (by simp [joinThread])⟩
      simp only [joinThread]
      rw [initAfterFinalize_append_right _ _ htail]
      exact h2

theorem singleRun_cerr (s : Process) (b : Bool) (text : Str) (h : SingleRun s) :
    SingleRun { s with isRunning := b, trace := s.trace ++ [Event.cerr text] } := by
  obtain ⟨r, th, sp, uj, tr, tm⟩ := s
  obtain ⟨h0, h1⟩ := h
  simp only at h0 h1
  have hno : ∀ e ∈ [Event.cerr text], e.isInitialize = false := by
    intro e he
    simp only [List.mem_singleton] at he
    subst he
    rfl
  refine ⟨fun e => ?_, fun e => ?_⟩
  · obtain ⟨h2, h3⟩ := h0 e
    exact ⟨by simpa using h2, h3⟩
  · obtain ⟨h2, h3⟩ := h1 e
    refine ⟨?_, ?_⟩
    · show initAfterFinalize (tr ++ [Event.cerr text]) = false
      rw [initAfterFinalize_append_right _ _ hno]
      exact h2
    · rcases h3 with h3 | h3
      · exact Or.inl (by simpa using h3)
      · exact Or.inr h3

theorem singleRun_step (env : WorkerEnv) (s : Process) (op : Op) (h : SingleRun s) :
    SingleRun (step env s op) := by
  cases op with
  | start =>
    simp only [step, pyfx.start]
    split_ifs
    · exact singleRun_assign env s true h
    · exact h
  | stop =>
    simp only [step, pyfx.stop]
    split_ifs
    · exact singleRun_join env s false h
    · exact h
  | attach ctor =>
    cases ctor with
    | started => exact singleRun_assign env s true h
    | threw what => exact singleRun_cerr s true _ h
  | detach => exact singleRun_join env s false h

theorem singleRun_run (env : WorkerEnv) (ops : List Op) (s : Process) (h : SingleRun s) :
    SingleRun (run env s ops) := by
  induction ops generalizing s with
  | nil => exact h
  | cons op ops ih =>
    unfold run
    split_ifs
    · exact h
    · exact ih _ (singleRun_step env s op h)

/-- C5 as stated fails: in `start()`, `stop()`, `start()`, `stop()`, with every
runtime call succeeding and both workers joined by `stop()`, the second worker
calls `Py_InitializeFromConfig` after the first one has called
`finalize_interpreter`. -/
theorem reinitialized_after_finalize :
    (interpreterSetup sampleEnv).threw = none ∧
    (run sampleEnv Process.initial [.start, .stop, .start, .stop]).spawned = 2 ∧
    (run sampleEnv Process.initial [.start, .stop, .start, .stop]).unjoined = [] ∧
    (run sampleEnv Process.initial [.start, .stop, .start, .stop]).terminated = false ∧
    initAfterFinalize (run sampleEnv Process.initial [.start, .stop, .start, .stop]).trace
      = true := by
  decide

/-- C5, amended: in every sequence of `start()`, `stop()`, attach and detach from
the initial state that spawns at most one worker, no `Py_InitializeFromConfig`
comes after a `finalize_interpreter`. -/
theorem single_worker_never_reinitializes (env : WorkerEnv) (ops : List Op)
    (h : (run env Process.initial ops).spawned ≤ 1) :
    initAfterFinalize (run env Process.initial ops).trace = false := by
  have hinit : SingleRun Process.initial :=
    ⟨fun _ => ⟨by simp [Process.initial], rfl⟩, fun e => by simp [Process.initial] at e⟩
  obtain ⟨h0, h1⟩ := singleRun_run env ops Process.initial hinit
  rcases Nat.lt_or_ge (run env Process.initial ops).spawned 1 with hlt | hge
  · have hfin := (h0 (by omega)).1
    have := initAfterFinalize_append_left _ [] hfin
    simpa [initAfterFinalize] using this
  · exact (h1 (by omega)).1

/-- C5, amended, at `start()`, `stop()`. -/
theorem single_worker_never_reinitializes_witness :
    (run sampleEnv Process.initial [.start, .stop]).spawned = 1 ∧
    Event.finalize_interpreter ∈ (run sampleEnv Process.initial [.start, .stop]).trace ∧
    initAfterFinalize (run sampleEnv Process.initial [.start, .stop]).trace = false :=
  ⟨by decide, by decide,
   single_worker_never_reinitializes sampleEnv [.start, .stop] (by decide)⟩

/-- C7: `running()` is false in the initial state, true after `start()` from
every state, false after `stop()` from every state; `start()` returns normally
when the handle is empty and the setup of the worker succeeds, `stop()` always. -/
theorem running_reflects_lifecycle :
    pyfx.running Process.initial = false ∧
    (∀ (env : WorkerEnv) (s : Process), pyfx.running (pyfx.start env s) = true) ∧
    (∀ (env : WorkerEnv) (s : Process), pyfx.running (pyfx.stop env s) = false) ∧
    (∀ (env : WorkerEnv) (s : Process), s.terminated = false → s.interpreterThread = none →
      (interpreterSetup env).threw = none → (pyfx.start env s).terminated = false) ∧
    (∀ (env : WorkerEnv) (s : Process), (pyfx.stop env s).terminated = s.terminated) := by
  refine ⟨rfl, fun env s => ?_, fun env s => ?_, fun env s h1 h2 h3 => ?_, fun env s => ?_⟩
  · obtain ⟨r, th, sp, uj, tr, tm⟩ := s
    cases r <;> cases th <;> simp [pyfx.running, pyfx.start, assignThread]
  · obtain ⟨r, th, sp, uj, tr, tm⟩ := s
    cases r <;> cases th <;> simp [pyfx.running, pyfx.stop, joinThread]
  · obtain ⟨r, th, sp, uj, tr, tm⟩ := s
    simp only at h1 h2
    subst h1 h2
    cases r <;> simp [pyfx.start, assignThread, h3]
  · obtain ⟨r, th, sp, uj, tr, tm⟩ := s
    cases r <;> cases th <;> simp [pyfx.stop, joinThread]

/-- C7 along `start()`, `stop()` from the initial state. -/
theorem running_reflects_lifecycle_witness :
    pyfx.running Process.initial = false ∧
    pyfx.running (pyfx.start sampleEnv Process.initial) = true ∧
    (pyfx.start sampleEnv Process.initial).terminated = false ∧
    pyfx.running (pyfx.stop sampleEnv (pyfx.start sampleEnv Process.initial)) = false :=
  ⟨running_reflects_lifecycle.1,
   running_reflects_lifecycle.2.1 sampleEnv Process.initial,
   running_reflects_lifecycle.2.2.2.1 sampleEnv Process.initial rfl rfl (by decide),
   running_reflects_lifecycle.2.2.1 sampleEnv _⟩

/-- C8: `start()` is idempotent. From every state a second `start()` right after
the first changes nothing, so two calls spawn as many workers as one; from the
initial state that is exactly one worker; and a `start()` that finds the flag
true leaves the flag, the handle and everything else as they are. -/
theorem start_idempotent :
    (∀ (env : WorkerEnv) (s : Process), pyfx.start env (pyfx.start env s) = pyfx.start env s) ∧
    (∀ (env : WorkerEnv) (s : Process),
      (pyfx.start env (pyfx.start env s)).spawned = (pyfx.start env s).spawned) ∧
    (∀ env : WorkerEnv,
      (pyfx.start env (pyfx.start env Process.initial)).spawned = 1 ∧
      (pyfx.start env (pyfx.start env Process.initial)).unjoined = [0] ∧
      (pyfx.start env (pyfx.start env Process.initial)).interpreterThread = some 0) ∧
    (∀ (env : WorkerEnv) (s : Process), s.isRunning = true → pyfx.start env s = s) := by
  have hflag : ∀ (env : WorkerEnv) (s : Process), s.isRunning = true → pyfx.start env s = s := by
    intro env s h
    simp [pyfx.start, h]
  have hrun : ∀ (env : WorkerEnv) (s : Process), (pyfx.start env s).isRunning = true := by
    intro env s
    obtain ⟨r, th, sp, uj, tr, tm⟩ := s
    cases r <;> cases th <;> simp [pyfx.start, assignThread]
  have hidem : ∀ (env : WorkerEnv) (s : Process),
      pyfx.start env (pyfx.start env s) = pyfx.start env s :=
    fun env s => hflag env _ (hrun env s)
  refine ⟨hidem, fun env s => by rw [hidem], fun env => ?_, hflag⟩
  rw [hidem]
  simp [pyfx.start, assignThread, Process.initial]

/-- C8 at a process whose flag is already true. -/
theorem start_idempotent_witness :
    pyfx.start sampleEnv (pyfx.start sampleEnv Process.initial)
      = pyfx.start sampleEnv Process.initial ∧
    (run sampleEnv Process.initial [.start, .start]).spawned = 1 :=
  ⟨start_idempotent.2.2.2 sampleEnv (pyfx.start sampleEnv Process.initial) (by decide),
   by decide⟩

end PyFx
